import Mathlib

/-!
Verification development for `dupes.go`, a duplicate-file finder: it walks a
directory tree, hashes every regular file with SHA-1 over the file size
(8-byte big-endian) followed by the file contents, groups paths by digest,
and reports groups of size at least 2, either space-joined or pairwise.

The development shallowly embeds the program: SHA-1 is implemented over byte
lists (bytes as `Nat` below 256), the file system is a map from paths to an
open/read/content outcome, the walker's visit sequence is a list of events,
and the goroutine/channel structure of `main`, `hash` and the error sink is
a small-step transition system.
-/

namespace Dupes

/-! ## SHA-1 over byte lists (crypto/sha1), bytes and 32-bit words as `Nat` -/

/-- 2^32, the modulus for 32-bit word arithmetic. -/
def m32 : Nat := 4294967296

/-- Rotate a 32-bit word (a `Nat` below `m32`) left by `s` bits. -/
def rotl32 (n s : Nat) : Nat := (n * 2 ^ s + n / 2 ^ (32 - s)) % m32

/-- Assemble four big-endian bytes into one 32-bit word. -/
def toWord (a b c d : Nat) : Nat := ((a * 256 + b) * 256 + c) * 256 + d

/-- Split a byte list into big-endian 32-bit words (dropping a ragged tail;
SHA-1 only applies this to 64-byte blocks). -/
def bytesToWords : List Nat → List Nat
  | a :: b :: c :: d :: rest => toWord a b c d :: bytesToWords rest
  | _ => []

/-- 32-bit complement of a word below `m32`. -/
def not32 (n : Nat) : Nat := 4294967295 - n

/-- The SHA-1 round mixing function for round `t`. -/
def sha1F (t b c d : Nat) : Nat :=
  if t < 20 then (b &&& c) ||| (not32 b &&& d)
  else if t < 40 then b ^^^ c ^^^ d
  else if t < 60 then (b &&& c) ||| (b &&& d) ||| (c &&& d)
  else b ^^^ c ^^^ d

/-- The SHA-1 round constant for round `t`. -/
def sha1K (t : Nat) : Nat :=
  if t < 20 then 1518500249
  else if t < 40 then 1859775393
  else if t < 60 then 2400959708
  else 3395469782

/-- The five-word SHA-1 working state `(a, b, c, d, e)`. -/
abbrev Sha1St := Nat × Nat × Nat × Nat × Nat

/-- One SHA-1 round: consume schedule word `t` and rotate the state. -/
def sha1Round (w : List Nat) (st : Sha1St) (t : Nat) : Sha1St :=
  ((rotl32 st.1 5 + sha1F t st.2.1 st.2.2.1 st.2.2.2.1 + st.2.2.2.2
      + sha1K t + w.getD t 0) % m32,
   st.1, rotl32 st.2.1 30, st.2.2.1, st.2.2.2.1)

/-- Extend the 16-word message schedule by `n` further words
(word `16 + i` is `rotl1` of the xor of words `13 + i`, `8 + i`, `2 + i`, `i`). -/
def expandW (w : List Nat) : Nat → List Nat
  | 0 => w
  | n + 1 =>
    let w' := expandW w n
    w' ++ [rotl32 ((w'.getD (13 + n) 0) ^^^ (w'.getD (8 + n) 0)
                    ^^^ (w'.getD (2 + n) 0) ^^^ (w'.getD n 0)) 1]

/-- Compress one 64-byte block into the five-word chaining state. -/
def processBlock (h : List Nat) (block : List Nat) : List Nat :=
  let w := expandW (bytesToWords block) 64
  let st0 : Sha1St := (h.getD 0 0, h.getD 1 0, h.getD 2 0, h.getD 3 0, h.getD 4 0)
  let f := (List.range 80).foldl (sha1Round w) st0
  [(h.getD 0 0 + f.1) % m32, (h.getD 1 0 + f.2.1) % m32, (h.getD 2 0 + f.2.2.1) % m32,
   (h.getD 3 0 + f.2.2.2.1) % m32, (h.getD 4 0 + f.2.2.2.2) % m32]

/-- Cut a byte list into successive 64-byte blocks. -/
def chunks64 : List Nat → List (List Nat)
  | [] => []
  | a :: rest => ((a :: rest).take 64) :: chunks64 (rest.drop 63)
termination_by l => l.length
decreasing_by simp [List.length_drop]; omega

/-- A 32-bit word as four big-endian bytes. -/
def be32 (n : Nat) : List Nat :=
  [n / 16777216 % 256, n / 65536 % 256, n / 256 % 256, n % 256]

/-- A 64-bit integer as eight big-endian bytes; this is what Go's
`binary.Write(sha, binary.BigEndian, size)` feeds the accumulator for an
`int64` size. -/
def be64 (n : Nat) : List Nat :=
  [n / 72057594037927936 % 256, n / 281474976710656 % 256, n / 1099511627776 % 256,
   n / 4294967296 % 256, n / 16777216 % 256, n / 65536 % 256, n / 256 % 256, n % 256]

/-- SHA-1 padding: append `0x80`, zeros to 56 mod 64, then the bit length
as eight big-endian bytes. -/
def sha1Pad (msg : List Nat) : List Nat :=
  msg ++ [128] ++ List.replicate ((119 - msg.length % 64) % 64) 0 ++ be64 (msg.length * 8)

/-- The SHA-1 initial chaining state. -/
def sha1Init : List Nat := [1732584193, 4023233417, 2562383102, 271733878, 3285377520]

/-- SHA-1 of a byte list, as the list of the 20 digest bytes. -/
def sha1Bytes (msg : List Nat) : List Nat :=
  ((chunks64 (sha1Pad msg)).foldl processBlock sha1Init).flatMap be32

/-! ## The file system and `hashFile` -/

/-- The outcome of opening and reading one file: `os.Open` fails, `io.Copy`
fails partway, or the full content is read to end-of-file. -/
inductive FileRes where
  | openFail (msg : String)
  | readFail (msg : String)
  | content (bytes : List Nat)

/-- A file system: each path resolves to an open/read outcome. -/
def FS := String → FileRes

/-- An error record on the shared error channel: Go's `*PathError` from
`os.Open` or the error from `io.Copy`; both carry the failing path. -/
inductive HashErr where
  | openE (path msg : String)
  | readE (path msg : String)
deriving DecidableEq

/-- The path carried by an error record. -/
def HashErr.epath : HashErr → String
  | .openE p _ => p
  | .readE p _ => p

/-- Outcome of the deferred `f.Close()` in `hashFile`: Go's
`(*os.File).Close` on a nil receiver returns `ErrInvalid`; a nil-pointer
dereference would be a runtime panic, which the nil check prevents. -/
inductive CloseOutcome where
  | retErrInvalid
  | retOk
  | panicNilDeref
deriving DecidableEq

/-- Modelled from the spec: Go's standard library `(*os.File).Close` (not in
this repository) begins with a nil-receiver check and returns `ErrInvalid`
for a nil handle instead of dereferencing it, so the deferred close in
`hashFile` is safe when `os.Open` failed and left `f` nil. -/
def fileClose : Option Unit → CloseOutcome
  | none => .retErrInvalid
  | some _ => .retOk

/-- The full observable behaviour of one `hashFile` call: the returned
digest `h` (`""`, i.e. `[]`, unless every step succeeded), the returned
error, and the outcome of the deferred close. -/
structure HashCall where
  digest : List Nat
  err : Option HashErr
  closeRes : CloseOutcome
deriving DecidableEq

/-- `hashFile(path, size)`: open the file (the close of the handle is
deferred before the open error is checked), return on an open error, feed
SHA-1 with the 8-byte big-endian size then the content, return on a read
error, else return the 20 digest bytes. -/
def hashFileFull (fs : FS) (path : String) (size : Nat) : HashCall :=
  match fs path with
  | .openFail m => { digest := [], err := some (.openE path m), closeRes := fileClose none }
  | .readFail m => { digest := [], err := some (.readE path m), closeRes := fileClose (some ()) }
  | .content bs =>
      { digest := sha1Bytes (be64 size ++ bs), err := none, closeRes := fileClose (some ()) }

/-- The `(h, err)` pair `hashFile` returns to its caller. -/
def hashFile (fs : FS) (path : String) (size : Nat) : List Nat × Option HashErr :=
  ((hashFileFull fs path size).digest, (hashFileFull fs path size).err)

/-! ## Walker events -/

/-- A `pathInfo` record sent on the descriptor channel. -/
structure PathInfo where
  path : String
  size : Nat
deriving DecidableEq

/-- One call of the walker's `visit` function: either a successfully stat'ed
entry, where `modeType` is `info.Mode() & os.ModeType` (`0` exactly for a
regular file), or a traversal error. -/
inductive WalkEvent where
  | entry (path : String) (modeType : Nat) (size : Nat)
  | verr (msg : String)
deriving DecidableEq

/-- The descriptors the walker pushes on the channel: one per visited entry
whose mode has no type bits set (regular files only). -/
def walkPaths (evs : List WalkEvent) : List PathInfo :=
  evs.filterMap fun e =>
    match e with
    | .entry p m s => if m = 0 then some ⟨p, s⟩ else none
    | .verr _ => none

/-- The traversal error messages the walker sends on the error channel. -/
def walkErrors (evs : List WalkEvent) : List String :=
  evs.filterMap fun e =>
    match e with
    | .entry _ _ _ => none
    | .verr m => some m

/-- The exit code accumulated by `walk`: `exitcode` starts at `0` and each
traversal error sets it to `1`. (The final `filepath.Walk` return value is
always nil here because `visit` always returns nil, so only per-entry
errors matter.) -/
def walkExit (evs : List WalkEvent) : Nat :=
  evs.foldl (fun c e => match e with | .verr _ => 1 | .entry _ _ _ => c) 0

/-! ## The hashing consumer and the grouping structure -/

/-- The grouping structure `byhash`, as an insertion-ordered association
list from digest to the bucket of paths. -/
abbrev ByHash := List (List Nat × List String)

/-- `byhash[h] = append(byhash[h], path)`: append to the bucket of key `h`,
creating the bucket if absent. -/
def mapAppend : ByHash → List Nat → String → ByHash
  | [], h, p => [(h, [p])]
  | (k, ps) :: rest, h, p =>
      if k = h then (k, ps ++ [p]) :: rest else (k, ps) :: mapAppend rest h p

/-- The loop of `hash`: drain the descriptor list in order; on success add
the path to its digest's bucket, on failure send the error record. -/
def hashLoop (fs : FS) : List PathInfo → ByHash → List HashErr → ByHash × List HashErr
  | [], m, errs => (m, errs)
  | d :: rest, m, errs =>
      match hashFile fs d.path d.size with
      | (h, none) => hashLoop fs rest (mapAppend m h d.path) errs
      | (_, some e) => hashLoop fs rest m (errs ++ [e])

/-- Run the hashing consumer on the whole descriptor stream, from the empty
grouping structure. -/
def runHash (fs : FS) (ds : List PathInfo) : ByHash × List HashErr :=
  hashLoop fs ds [] []

/-- The digest a descriptor hashes to, when `hashFile` succeeds on it. -/
def digestOf (fs : FS) (d : PathInfo) : Option (List Nat) :=
  match hashFile fs d.path d.size with
  | (h, none) => some h
  | (_, some _) => none

/-- Path `p` is in the bucket of digest `k` of the grouping structure. -/
def inBucket (m : ByHash) (k : List Nat) (p : String) : Prop :=
  ∃ ps, (k, ps) ∈ m ∧ p ∈ ps

/-- Paths `p` and `q` lie in one common bucket of the grouping structure. -/
def sameGroup (m : ByHash) (p q : String) : Prop :=
  ∃ k ps, (k, ps) ∈ m ∧ p ∈ ps ∧ q ∈ ps

/-! ## The reporter -/

/-- One stdout line: a whole bucket space-joined, or one pair `p q`. -/
inductive Line where
  | joined (ps : List String)
  | pair (p q : String)
deriving DecidableEq

/-- `printpairs`: for each index `i`, print `paths[i]` with every later
path. -/
def printpairs : List String → List Line
  | [] => []
  | p :: rest => rest.map (Line.pair p) ++ printpairs rest

/-- The output the reporting loop in `main` produces for one bucket:
nothing unless the bucket has more than one path, else the pairs or the
joined line. -/
def reportBucket (pairsFlag : Bool) (ps : List String) : List Line :=
  if ps.length > 1 then
    if pairsFlag then printpairs ps else [Line.joined ps]
  else []

/-- The whole report, over the buckets of the grouping structure in order. -/
def report (pairsFlag : Bool) (m : ByHash) : List Line :=
  m.flatMap fun kv => reportBucket pairsFlag kv.2

/-- The paths a line mentions. -/
def Line.mentions : Line → List String
  | .joined ps => ps
  | .pair p q => [p, q]

/-! ## `main`: argument handling, the run, and the exit code -/

/-- The two boolean flags of the CLI. -/
structure Flags where
  pairs : Bool
  quiet : Bool

/-- The observable result of a run: `usage` is the `flag.NArg() > 1` branch
(usage message, `os.Exit(3)`, no walk, no output); otherwise the report
lines and the exit code from `walk`. -/
inductive MainResult where
  | usage
  | ran (lines : List Line) (exitcode : Nat)
deriving DecidableEq

/-- The root `main` selects from the positional arguments (`"."` when there
are none); irrelevant in the `usage` branch. -/
def rootOf : List String → String
  | [] => "."
  | r :: _ => r

/-- The pipeline `main` runs on a chosen root: walk the tree (yielding the
visit events `evs`), hash the emitted descriptors, report the groups, exit
with the walker's code. -/
def runWith (fs : FS) (evs : List WalkEvent) (fl : Flags) : MainResult :=
  .ran (report fl.pairs (runHash fs (walkPaths evs)).1) (walkExit evs)

/-- `main`: `0` positional arguments scans `"."`, `1` scans it, more is a
usage error that exits before any walk. `evsOf` gives the visit-event
sequence `filepath.Walk` produces for a root. -/
def dupesRun (fs : FS) (evsOf : String → List WalkEvent) (fl : Flags)
    (args : List String) : MainResult :=
  match args with
  | [] => runWith fs (evsOf ".") fl
  | [r] => runWith fs (evsOf r) fl
  | _ :: _ :: _ => .usage

/-- The process exit code of a result. -/
def exitCodeOf : MainResult → Nat
  | .usage => 3
  | .ran _ c => c

/-! ## The concurrent skeleton of `main`, `hash` and the error sink

`main` runs `walk` on its own thread of control (sends on `paths` and
`errors`, then `close(paths)`), while the `hash` goroutine drains `paths`
and the optional sink goroutine drains `errors`; `main` then receives from
`hashdone` and closes `errors`. All three channels are buffered with
capacity 10; a send on a full channel blocks, a send on a closed channel
panics. -/

/-- One pending action of the walker thread: send a descriptor on `paths`,
or send a traversal error on `errors`. -/
inductive WAct where
  | wpath (p : PathInfo)
  | werr (m : String)
deriving DecidableEq

/-- Whether a walker action is an error send. -/
def WAct.isErr : WAct → Bool
  | .wpath _ => false
  | .werr _ => true

/-- A state of the concurrent system. -/
structure Sys where
  /-- Walker actions not yet performed (program order). -/
  wacts : List WAct
  /-- `close(paths)` has run (end of `walk`). -/
  pathsClosed : Bool
  /-- Contents of the `paths` channel buffer, oldest first. -/
  pathsBuf : List PathInfo
  /-- The hasher has sent on `hashdone`. -/
  doneSent : Bool
  /-- `main` has received from `hashdone`. -/
  doneRecvd : Bool
  /-- `close(errors)` has run. -/
  errClosed : Bool
  /-- Number of undrained records in the `errors` channel buffer. -/
  errBuf : Nat
  /-- The hasher holds an error record it has not yet sent. -/
  hasherPend : Bool
  /-- The hasher goroutine has finished. -/
  hasherDone : Bool
  /-- The grouping structure owned by the hasher. -/
  byhash : ByHash
  /-- A send on a closed channel occurred (Go run-time panic). -/
  panicked : Bool
deriving DecidableEq

/-- The initial state for a walker with pending actions `ws`. -/
def Sys.init (ws : List WAct) : Sys :=
  { wacts := ws, pathsClosed := false, pathsBuf := [], doneSent := false,
    doneRecvd := false, errClosed := false, errBuf := 0, hasherPend := false,
    hasherDone := false, byhash := [], panicked := false }

/-- One interleaved step of the system. `fs` decides each `hashFile` call;
`sink` is true when the error-draining goroutine was started (`!quiet`). -/
inductive Step (fs : FS) (sink : Bool) : Sys → Sys → Prop where
  /-- Walker sends a descriptor; blocks unless the `paths` buffer has room. -/
  | walkSendPath (s : Sys) (p : PathInfo) (rest : List WAct) :
      s.wacts = .wpath p :: rest → s.pathsBuf.length < 10 →
      Step fs sink s { s with wacts := rest, pathsBuf := s.pathsBuf ++ [p] }
  /-- Walker sends a traversal error on the open `errors` channel. -/
  | walkSendErr (s : Sys) (m : String) (rest : List WAct) :
      s.wacts = .werr m :: rest → s.errClosed = false → s.errBuf < 10 →
      Step fs sink s { s with wacts := rest, errBuf := s.errBuf + 1 }
  /-- Walker sends a traversal error after `close(errors)`: panic. -/
  | walkSendErrPanic (s : Sys) (m : String) (rest : List WAct) :
      s.wacts = .werr m :: rest → s.errClosed = true →
      Step fs sink s { s with panicked := true }
  /-- End of `walk`: `close(paths)`. -/
  | walkClose (s : Sys) :
      s.wacts = [] → s.pathsClosed = false →
      Step fs sink s { s with pathsClosed := true }
  /-- Hasher receives a descriptor whose `hashFile` succeeds and appends the
  path to its digest's bucket. -/
  | hashRecvOk (s : Sys) (d : PathInfo) (rest : List PathInfo) (h : List Nat) :
      s.pathsBuf = d :: rest → s.hasherDone = false → s.hasherPend = false →
      hashFile fs d.path d.size = (h, none) →
      Step fs sink s { s with pathsBuf := rest, byhash := mapAppend s.byhash h d.path }
  /-- Hasher receives a descriptor whose `hashFile` fails; the error record
  is now pending to be sent. -/
  | hashRecvFail (s : Sys) (d : PathInfo) (rest : List PathInfo) (h : List Nat) (e : HashErr) :
      s.pathsBuf = d :: rest → s.hasherDone = false → s.hasherPend = false →
      hashFile fs d.path d.size = (h, some e) →
      Step fs sink s { s with pathsBuf := rest, hasherPend := true }
  /-- Hasher sends its pending error on the open `errors` channel. -/
  | hashSendErr (s : Sys) :
      s.hasherPend = true → s.errClosed = false → s.errBuf < 10 →
      Step fs sink s { s with hasherPend := false, errBuf := s.errBuf + 1 }
  /-- Hasher sends its pending error after `close(errors)`: panic. -/
  | hashSendErrPanic (s : Sys) :
      s.hasherPend = true → s.errClosed = true →
      Step fs sink s { s with panicked := true }
  /-- The `range paths` loop ends (channel closed and drained); the hasher
  sends on `hashdone` (buffered, never blocks) and finishes. -/
  | hashSendDone (s : Sys) :
      s.hasherDone = false → s.hasherPend = false → s.pathsBuf = [] →
      s.pathsClosed = true →
      Step fs sink s { s with doneSent := true, hasherDone := true }
  /-- `main` (after `walk` returned) receives from `hashdone`. -/
  | mainRecvDone (s : Sys) :
      s.pathsClosed = true → s.doneSent = true → s.doneRecvd = false →
      Step fs sink s { s with doneRecvd := true }
  /-- `main` closes the `errors` channel, right after `<-hashdone`. -/
  | mainCloseErr (s : Sys) :
      s.doneRecvd = true → s.errClosed = false →
      Step fs sink s { s with errClosed := true }
  /-- The sink goroutine (started only when not quiet) drains one record. -/
  | sinkDrain (s : Sys) :
      sink = true → 0 < s.errBuf →
      Step fs sink s { s with errBuf := s.errBuf - 1 }

/-- Reachability from the initial state. -/
def Reach (fs : FS) (sink : Bool) (ws : List WAct) (s : Sys) : Prop :=
  Relation.ReflTransGen (Step fs sink) (Sys.init ws) s

/-- The shutdown-handshake invariant: no panic has occurred, `close(errors)`
is preceded by `<-hashdone`, which is preceded by the hasher's `hashdone`
send (possible only once the descriptor channel is closed, drained and no
error send is pending), and `close(paths)` is preceded by the walker
emptying its action list. -/
def SysInv (s : Sys) : Prop :=
  s.panicked = false
  ∧ (s.errClosed = true → s.doneRecvd = true)
  ∧ (s.doneRecvd = true → s.doneSent = true)
  ∧ (s.doneSent = true → s.pathsClosed = true ∧ s.hasherDone = true
      ∧ s.hasherPend = false ∧ s.pathsBuf = [])
  ∧ (s.pathsClosed = true → s.wacts = [])

theorem sysInv_step (fs : FS) (sink : Bool) {s t : Sys}
    (hs : SysInv s) (h : Step fs sink s t) : SysInv t := by
  obtain ⟨h1, h2, h3, h4, h5⟩ := hs
  cases h <;> simp_all [SysInv]

theorem sysInv_reach (fs : FS) (sink : Bool) (ws : List WAct) (s : Sys)
    (h : Reach fs sink ws s) : SysInv s := by
  induction h with
  | refl => simp [SysInv, Sys.init]
  | tail _ hstep ih => exact sysInv_step _ _ ih hstep

/-- Number of error sends among the walker's pending actions. -/
def werrCount (ws : List WAct) : Nat := ws.countP WAct.isErr

/-- Whether hashing a descriptor fails, i.e. its `hashFile` call returns an
error the hasher must send on the error channel. -/
def hashFails (fs : FS) (p : PathInfo) : Bool :=
  ((hashFile fs p.path p.size).2).isSome

/-- Hasher-origin error records latent in the walker's pending actions:
descriptors still to be sent whose `hashFile` call will fail. -/
def herrCount (fs : FS) (ws : List WAct) : Nat :=
  ws.countP fun a =>
    match a with
    | .wpath p => hashFails fs p
    | .werr _ => false

/-- Failing descriptors sitting unread in the `paths` channel buffer. -/
def failCount (fs : FS) (buf : List PathInfo) : Nat := buf.countP (hashFails fs)

/-- Counting invariant for a quiet run (no sink): the error buffer holds at
most 10 records, and since nothing ever drains it the error records not yet
buffered — walker error sends still pending, failing descriptors still with
the walker or in the channel buffer, and a pending hasher send — plus the
records already buffered never drop below the initial total `w0`, whichever
producer they originate from. -/
def QuietInv (fs : FS) (w0 : Nat) (s : Sys) : Prop :=
  s.errBuf ≤ 10
  ∧ w0 ≤ werrCount s.wacts + herrCount fs s.wacts + failCount fs s.pathsBuf
      + (if s.hasherPend then 1 else 0) + s.errBuf

theorem quietInv_step (fs : FS) (w0 : Nat) {s t : Sys}
    (hq : QuietInv fs w0 s) (h : Step fs false s t) : QuietInv fs w0 t := by
  obtain ⟨h1, h2⟩ := hq
  cases h <;>
    simp_all [QuietInv, werrCount, herrCount, failCount, hashFails, WAct.isErr,
      List.countP_cons, List.countP_append] <;>
    omega

theorem quietInv_reach (fs : FS) (ws : List WAct) (s : Sys)
    (h : Reach fs false ws s) : QuietInv fs (werrCount ws + herrCount fs ws) s := by
  induction h with
  | refl => simp [QuietInv, Sys.init, failCount]
  | tail _ hstep ih => exact quietInv_step _ _ ih hstep

/-! ## Lemmas on the grouping structure -/

/-- The digest keys of the grouping structure, in insertion order. -/
def keysOf (m : ByHash) : List (List Nat) := m.map Prod.fst

theorem inBucket_nil (k : List Nat) (p : String) : ¬ inBucket [] k p := by
  rintro ⟨ps, hmem, -⟩
  exact (List.not_mem_nil _ hmem).elim

/-- The bucket stored under key `k` (first occurrence; the structures the
hasher builds have pairwise distinct keys). -/
def getBucket : ByHash → List Nat → List String
  | [], _ => []
  | (ka, ps) :: rest, k => if ka = k then ps else getBucket rest k

theorem getBucket_mapAppend (m : ByHash) (h : List Nat) (x : String) (k : List Nat) :
    getBucket (mapAppend m h x) k =
      if k = h then getBucket m k ++ [x] else getBucket m k := by
  induction m with
  | nil =>
      by_cases hk : k = h
      · subst hk; simp [mapAppend, getBucket]
      · simp [mapAppend, getBucket, hk, Ne.symm hk]
  | cons a rest ih =>
      obtain ⟨ka, psa⟩ := a
      by_cases hka : ka = h
      · subst hka
        by_cases hk : ka = k
        · subst hk; simp [mapAppend, getBucket]
        · simp [mapAppend, getBucket, hk, Ne.symm hk]
      · by_cases hk : ka = k
        · subst hk
          simp [mapAppend, getBucket, hka]
        · simp [mapAppend, getBucket, hka, hk, ih]

theorem getBucket_mem {m : ByHash} {k : List Nat} {p : String}
    (h : p ∈ getBucket m k) : (k, getBucket m k) ∈ m := by
  induction m with
  | nil => simp [getBucket] at h
  | cons a rest ih =>
      obtain ⟨ka, psa⟩ := a
      by_cases hk : ka = k
      · subst hk
        simp only [getBucket, if_pos rfl]
        exact List.mem_cons_self _ _
      · simp only [getBucket, if_neg hk] at h ⊢
        exact List.mem_cons_of_mem _ (ih h)

theorem inBucket_iff_getBucket {m : ByHash} (hnd : (keysOf m).Nodup)
    (k : List Nat) (p : String) : inBucket m k p ↔ p ∈ getBucket m k := by
  induction m with
  | nil => simp [inBucket, getBucket]
  | cons a rest ih =>
      obtain ⟨ka, psa⟩ := a
      simp only [keysOf, List.map_cons, List.nodup_cons] at hnd
      constructor
      · rintro ⟨ps, hmem, hp⟩
        rcases List.mem_cons.mp hmem with heq | hmem'
        · simp only [Prod.mk.injEq] at heq
          obtain ⟨rfl, rfl⟩ := heq
          simp [getBucket, hp]
        · have hkr : k ∈ keysOf rest := List.mem_map.mpr ⟨(k, ps), hmem', rfl⟩
          have hka : ka ≠ k := fun h' => hnd.1 (h' ▸ hkr)
          simp only [getBucket, if_neg hka]
          exact (ih hnd.2 ).mp ⟨ps, hmem', hp⟩
      · intro hp
        by_cases hk : ka = k
        · subst hk
          simp only [getBucket, if_pos rfl] at hp
          exact ⟨psa, List.mem_cons_self _ _, hp⟩
        · simp only [getBucket, if_neg hk] at hp
          obtain ⟨ps, hmem, hp'⟩ := (ih hnd.2).mpr hp
          exact ⟨ps, List.mem_cons_of_mem _ hmem, hp'⟩

theorem keysOf_mapAppend (m : ByHash) (h : List Nat) (x : String) :
    keysOf (mapAppend m h x) = if h ∈ keysOf m then keysOf m else keysOf m ++ [h] := by
  induction m with
  | nil => simp [mapAppend, keysOf]
  | cons a rest ih =>
      obtain ⟨ka, psa⟩ := a
      by_cases hka : ka = h
      · subst hka
        simp [mapAppend, keysOf]
      · simp only [mapAppend, if_neg hka, keysOf, List.map_cons, List.mem_cons] at ih ⊢
        rw [ih]
        by_cases hmem : h ∈ List.map Prod.fst rest
        · simp [hmem, hka, Ne.symm hka]
        · simp [hmem, hka, Ne.symm hka]

theorem keysOf_mapAppend_nodup (m : ByHash) (h : List Nat) (x : String)
    (hnd : (keysOf m).Nodup) : (keysOf (mapAppend m h x)).Nodup := by
  rw [keysOf_mapAppend]
  by_cases hmem : h ∈ keysOf m
  · simpa [hmem] using hnd
  · simp only [if_neg hmem, List.nodup_append, List.nodup_singleton]
    exact ⟨hnd, by simp, by simpa [List.disjoint_singleton] using hmem⟩

theorem sameGroup_iff_getBucket {m : ByHash} (hnd : (keysOf m).Nodup)
    (p q : String) :
    sameGroup m p q ↔ ∃ k, p ∈ getBucket m k ∧ q ∈ getBucket m k := by
  constructor
  · rintro ⟨k, ps, hmem, hp, hq⟩
    exact ⟨k, (inBucket_iff_getBucket hnd k p).mp ⟨ps, hmem, hp⟩,
      (inBucket_iff_getBucket hnd k q).mp ⟨ps, hmem, hq⟩⟩
  · rintro ⟨k, hp, hq⟩
    exact ⟨k, getBucket m k, getBucket_mem hp, hp, hq⟩

/-! ## Lemmas on `hashFile` and the hashing loop -/

theorem hashFile_err_path {fs : FS} {p : String} {s : Nat} {e : HashErr}
    (h : (hashFile fs p s).2 = some e) : e.epath = p := by
  cases hfs : fs p with
  | openFail m =>
      simp only [hashFile, hashFileFull, hfs, Option.some.injEq] at h
      simp [← h, HashErr.epath]
  | readFail m =>
      simp only [hashFile, hashFileFull, hfs, Option.some.injEq] at h
      simp [← h, HashErr.epath]
  | content bs => simp [hashFile, hashFileFull, hfs] at h

theorem hashFile_digest_of_err {fs : FS} {p : String} {s : Nat} {e : HashErr}
    (h : (hashFile fs p s).2 = some e) : (hashFile fs p s).1 = [] := by
  cases hfs : fs p <;> simp [hashFile, hashFileFull, hfs] at h ⊢

theorem digestOf_none {fs : FS} {d : PathInfo} {e : HashErr}
    (h : (hashFile fs d.path d.size).2 = some e) : digestOf fs d = none := by
  rcases hh : hashFile fs d.path d.size with ⟨dg, er⟩
  rw [hh] at h
  simp only at h
  subst h
  simp [digestOf, hh]

theorem hashLoop_snd (fs : FS) (ds : List PathInfo) (m : ByHash) (errs : List HashErr) :
    (hashLoop fs ds m errs).2
      = errs ++ ds.filterMap (fun d => (hashFile fs d.path d.size).2) := by
  induction ds generalizing m errs with
  | nil => simp [hashLoop]
  | cons d rest ih =>
      rcases hh : hashFile fs d.path d.size with ⟨h, e⟩
      cases e with
      | none => simp [hashLoop, hh, ih]
      | some e => simp [hashLoop, hh, ih]

theorem getBucket_hashLoop (fs : FS) (ds : List PathInfo) (m : ByHash)
    (errs : List HashErr) (k : List Nat) (p : String) :
    p ∈ getBucket (hashLoop fs ds m errs).1 k ↔
      p ∈ getBucket m k ∨ ∃ d ∈ ds, d.path = p ∧ digestOf fs d = some k := by
  induction ds generalizing m errs with
  | nil => simp [hashLoop]
  | cons d rest ih =>
      rcases hh : hashFile fs d.path d.size with ⟨h, e⟩
      cases e with
      | none =>
          have hd : digestOf fs d = some h := by simp [digestOf, hh]
          simp only [hashLoop, hh, ih, getBucket_mapAppend, hd, List.mem_cons]
          by_cases hk : k = h
          · subst hk
            simp only [eq_self_iff_true, if_true, List.mem_append, List.mem_singleton]
            constructor
            · rintro ((hp | rfl) | hrest)
              · exact Or.inl hp
              · exact Or.inr ⟨d, Or.inl rfl, rfl, hd⟩
              · obtain ⟨d', hd', hp', hdg⟩ := hrest
                exact Or.inr ⟨d', Or.inr hd', hp', hdg⟩
            · rintro (hp | ⟨d', (rfl | hd'), hp', hdg⟩)
              · exact Or.inl (Or.inl hp)
              · exact Or.inl (Or.inr hp'.symm)
              · exact Or.inr ⟨d', hd', hp', hdg⟩
          · simp only [if_neg hk]
            constructor
            · rintro (hp | hrest)
              · exact Or.inl hp
              · obtain ⟨d', hd', hp', hdg⟩ := hrest
                exact Or.inr ⟨d', Or.inr hd', hp', hdg⟩
            · rintro (hp | ⟨d', (rfl | hd'), hp', hdg⟩)
              · exact Or.inl hp
              · rw [hd] at hdg
                simp only [Option.some.injEq] at hdg
                exact absurd hdg.symm hk
              · exact Or.inr ⟨d', hd', hp', hdg⟩
      | some e =>
          have hd : digestOf fs d = none := digestOf_none (by rw [hh])
          simp only [hashLoop, hh, ih, List.mem_cons]
          constructor
          · rintro (hp | ⟨d', hd', hp', hdg⟩)
            · exact Or.inl hp
            · exact Or.inr ⟨d', Or.inr hd', hp', hdg⟩
          · rintro (hp | ⟨d', (rfl | hd'), hp', hdg⟩)
            · exact Or.inl hp
            · rw [hd] at hdg; cases hdg
            · exact Or.inr ⟨d', hd', hp', hdg⟩

theorem keysOf_hashLoop_nodup (fs : FS) (ds : List PathInfo) (m : ByHash)
    (errs : List HashErr) (hnd : (keysOf m).Nodup) :
    (keysOf (hashLoop fs ds m errs).1).Nodup := by
  induction ds generalizing m errs with
  | nil => simpa [hashLoop] using hnd
  | cons d rest ih =>
      rcases hh : hashFile fs d.path d.size with ⟨h, e⟩
      cases e with
      | none =>
          simp only [hashLoop, hh]
          exact ih _ _ (keysOf_mapAppend_nodup _ _ _ hnd)
      | some e =>
          simp only [hashLoop, hh]
          exact ih _ _ hnd

theorem flatMap_snd_mapAppend (m : ByHash) (h : List Nat) (x : String) :
    ((mapAppend m h x).flatMap Prod.snd).Perm (x :: m.flatMap Prod.snd) := by
  induction m with
  | nil => simp [mapAppend]
  | cons a rest ih =>
      obtain ⟨ka, psa⟩ := a
      by_cases hka : ka = h
      · subst hka
        simp only [mapAppend, eq_self_iff_true, if_true, List.flatMap_cons]
        rw [List.append_assoc, List.singleton_append]
        exact List.perm_middle
      · simp only [mapAppend, if_neg hka, List.flatMap_cons]
        exact (ih.append_left psa).trans List.perm_middle

/-- The paths of the descriptors that hash successfully, in stream order. -/
def okPaths (fs : FS) (ds : List PathInfo) : List String :=
  ds.filterMap fun d =>
    match digestOf fs d with
    | some _ => some d.path
    | none => none

theorem hashLoop_flatMap_perm (fs : FS) (ds : List PathInfo) (m : ByHash)
    (errs : List HashErr) :
    ((hashLoop fs ds m errs).1.flatMap Prod.snd).Perm
      (m.flatMap Prod.snd ++ okPaths fs ds) := by
  induction ds generalizing m errs with
  | nil => simp [hashLoop, okPaths]
  | cons d rest ih =>
      rcases hh : hashFile fs d.path d.size with ⟨h, e⟩
      cases e with
      | none =>
          have hd : digestOf fs d = some h := by simp [digestOf, hh]
          simp only [hashLoop, hh]
          refine (ih _ _).trans ?_
          refine ((flatMap_snd_mapAppend m h d.path).append_right (okPaths fs rest)).trans ?_
          simp only [okPaths, List.filterMap_cons, hd, List.cons_append]
          exact List.perm_middle.symm
      | some e =>
          have hd : digestOf fs d = none := digestOf_none (by rw [hh])
          simp only [hashLoop, hh]
          refine (ih _ _).trans ?_
          simp [okPaths, List.filterMap_cons, hd]

theorem okPaths_sublist (fs : FS) (ds : List PathInfo) :
    (okPaths fs ds).Sublist (ds.map PathInfo.path) := by
  induction ds with
  | nil => simp [okPaths]
  | cons d rest ih =>
      cases hd : digestOf fs d with
      | none =>
          simp only [okPaths, List.filterMap_cons, hd, List.map_cons]
          exact ih.cons _
      | some k =>
          simp only [okPaths, List.filterMap_cons, hd, List.map_cons]
          exact ih.cons₂ _

/-! ## Lemmas on the walker -/

theorem walkPaths_mem {evs : List WalkEvent} {d : PathInfo} (h : d ∈ walkPaths evs) :
    WalkEvent.entry d.path 0 d.size ∈ evs := by
  simp only [walkPaths, List.mem_filterMap] at h
  obtain ⟨e, he, hfe⟩ := h
  cases e with
  | entry q mt s =>
      by_cases hm : mt = 0
      · simp only [hm, eq_self_iff_true, if_true, Option.some.injEq] at hfe
        subst hfe
        rw [hm] at he
        exact he
      · simp [hm] at hfe
  | verr m => simp at hfe

theorem walkExit_foldl (evs : List WalkEvent) : ∀ c : Nat,
    evs.foldl (fun c e => match e with | .verr _ => 1 | .entry _ _ _ => c) c
      = if walkErrors evs = [] then c else 1 := by
  induction evs with
  | nil => intro c; simp [walkErrors]
  | cons e rest ih =>
      intro c
      cases e with
      | entry p mt s => simp [walkErrors, List.filterMap_cons, ih, List.foldl_cons]
      | verr m => simp [walkErrors, List.filterMap_cons, ih, List.foldl_cons]

theorem walkExit_eq (evs : List WalkEvent) :
    walkExit evs = if walkErrors evs = [] then 0 else 1 :=
  walkExit_foldl evs 0

/-! ## Lemmas on the reporter -/

theorem printpairs_mem : ∀ {ps : List String} {p q : String},
    Line.pair p q ∈ printpairs ps → p ∈ ps ∧ q ∈ ps := by
  intro ps
  induction ps with
  | nil => intro p q h; simp [printpairs] at h
  | cons a rest ih =>
      intro p q h
      simp only [printpairs, List.mem_append, List.mem_map] at h
      rcases h with ⟨r, hr, heq⟩ | h
      · simp only [Line.pair.injEq] at heq
        obtain ⟨rfl, rfl⟩ := heq
        exact ⟨List.mem_cons_self _ _, List.mem_cons_of_mem _ hr⟩
      · obtain ⟨hp, hq⟩ := ih h
        exact ⟨List.mem_cons_of_mem _ hp, List.mem_cons_of_mem _ hq⟩

theorem printpairs_shape {ps : List String} {l : Line} (h : l ∈ printpairs ps) :
    ∃ p q, l = Line.pair p q := by
  induction ps with
  | nil => simp [printpairs] at h
  | cons a rest ih =>
      simp only [printpairs, List.mem_append, List.mem_map] at h
      rcases h with ⟨r, -, heq⟩ | h
      · exact ⟨a, r, heq.symm⟩
      · exact ih h

theorem printpairs_length (ps : List String) :
    (printpairs ps).length = Nat.choose ps.length 2 := by
  induction ps with
  | nil => simp [printpairs]
  | cons a rest ih =>
      simp only [printpairs, List.length_append, List.length_map, List.length_cons, ih]
      rw [Nat.choose_succ_succ, Nat.choose_one_right]

theorem printpairs_nodup {ps : List String} (h : ps.Nodup) :
    (printpairs ps).Nodup := by
  induction ps with
  | nil => simp [printpairs]
  | cons a rest ih =>
      simp only [List.nodup_cons] at h
      simp only [printpairs, List.nodup_append]
      refine ⟨?_, ih h.2, ?_⟩
      · exact h.2.map (fun x y hxy => by simpa [Line.pair.injEq] using hxy)
      · rintro l hl hl'
        obtain ⟨r, hr, rfl⟩ := List.mem_map.mp hl
        exact h.1 (printpairs_mem hl').1

theorem printpairs_irrefl {ps : List String} (h : ps.Nodup) {p q : String}
    (hm : Line.pair p q ∈ printpairs ps) :
    p ≠ q ∧ Line.pair q p ∉ printpairs ps := by
  induction ps with
  | nil => simp [printpairs] at hm
  | cons a rest ih =>
      simp only [List.nodup_cons] at h
      simp only [printpairs, List.mem_append, List.mem_map] at hm
      rcases hm with ⟨r, hr, heq⟩ | hm
      · simp only [Line.pair.injEq] at heq
        obtain ⟨rfl, rfl⟩ := heq
        constructor
        · rintro rfl; exact h.1 hr
        · intro hc
          simp only [printpairs, List.mem_append, List.mem_map] at hc
          rcases hc with ⟨r', hr', heq'⟩ | hc
          · simp only [Line.pair.injEq] at heq'
            obtain ⟨rfl, rfl⟩ := heq'
            exact h.1 hr
          · exact h.1 (printpairs_mem hc).2
      · obtain ⟨hne, hnc⟩ := ih h.2 hm
        refine ⟨hne, ?_⟩
        intro hc
        simp only [printpairs, List.mem_append, List.mem_map] at hc
        rcases hc with ⟨r', hr', heq'⟩ | hc
        · simp only [Line.pair.injEq] at heq'
          obtain ⟨rfl, rfl⟩ := heq'
          exact h.1 (printpairs_mem hm).2
        · exact hnc hc

theorem mentions_reportBucket {b : Bool} {ps : List String} {l : Line}
    (h : l ∈ reportBucket b ps) : ∀ x ∈ l.mentions, x ∈ ps := by
  by_cases hlen : ps.length > 1
  · rw [reportBucket, if_pos hlen] at h
    cases b with
    | true =>
        simp only [if_pos rfl] at h
        obtain ⟨p, q, rfl⟩ := printpairs_shape h
        obtain ⟨hp, hq⟩ := printpairs_mem h
        intro x hx
        rcases List.mem_cons.mp hx with rfl | hx
        · exact hp
        · simp only [Line.mentions, List.mem_singleton] at hx
          exact hx ▸ hq
    | false =>
        have h' : l = Line.joined ps := by simpa using h
        subst h'
        intro x hx
        simpa [Line.mentions] using hx
  · rw [reportBucket, if_neg hlen] at h
    cases h

theorem report_mem {b : Bool} {m : ByHash} {l : Line} (h : l ∈ report b m) :
    ∃ kv ∈ m, l ∈ reportBucket b kv.2 := by
  simpa [report, List.mem_flatMap] using h

/-! ## Lemmas counting error records -/

theorem errs_countP_zero (fs : FS) (ds : List PathInfo) (p : String)
    (hnp : p ∉ ds.map PathInfo.path) :
    (ds.filterMap fun d => (hashFile fs d.path d.size).2).countP
      (fun er => er.epath == p) = 0 := by
  induction ds with
  | nil => simp
  | cons d rest ih =>
      simp only [List.map_cons, List.mem_cons, not_or] at hnp
      cases he : (hashFile fs d.path d.size).2 with
      | none =>
          simp only [List.filterMap_cons, he]
          exact ih hnp.2
      | some e =>
          have hpth : e.epath = d.path := hashFile_err_path he
          simp only [List.filterMap_cons, he, List.countP_cons, hpth]
          rw [ih hnp.2]
          simp [Ne.symm hnp.1]

theorem errs_countP_one (fs : FS) (d : PathInfo) (e : HashErr)
    (hfail : (hashFile fs d.path d.size).2 = some e) :
    ∀ ds : List PathInfo, d ∈ ds → (ds.map PathInfo.path).Nodup →
      (ds.filterMap fun d' => (hashFile fs d'.path d'.size).2).countP
        (fun er => er.epath == d.path) = 1 := by
  intro ds
  induction ds with
  | nil => intro hd; cases hd
  | cons a rest ih =>
      intro hd hnd
      simp only [List.map_cons, List.nodup_cons] at hnd
      rcases List.mem_cons.mp hd with rfl | hd'
      · simp only [List.filterMap_cons, hfail, List.countP_cons,
          hashFile_err_path hfail]
        rw [errs_countP_zero fs rest d.path hnd.1]
        simp
      · have hne : a.path ≠ d.path := by
          intro hcontra
          exact hnd.1 (hcontra ▸ List.mem_map.mpr ⟨d, hd', rfl⟩)
        cases he : (hashFile fs a.path a.size).2 with
        | none =>
            simp only [List.filterMap_cons, he]
            exact ih hd' hnd.2
        | some e' =>
            simp only [List.filterMap_cons, he, List.countP_cons,
              hashFile_err_path he]
            rw [ih hd' hnd.2]
            simp [hne]

/-! ## Length of the SHA-1 digest -/

theorem length_be32 (n : Nat) : (be32 n).length = 4 := rfl

theorem length_processBlock (h block : List Nat) :
    (processBlock h block).length = 5 := by
  simp [processBlock]

theorem length_foldl_processBlock (bs : List (List Nat)) (h : List Nat)
    (hh : h.length = 5) : (bs.foldl processBlock h).length = 5 := by
  induction bs generalizing h with
  | nil => simpa using hh
  | cons b rest ih =>
      simp only [List.foldl_cons]
      exact ih _ (length_processBlock _ _)

theorem length_flatMap_be32 (l : List Nat) : (l.flatMap be32).length = 4 * l.length := by
  induction l with
  | nil => simp
  | cons a rest ih =>
      simp only [List.flatMap_cons, List.length_append, length_be32, ih, List.length_cons]
      omega

theorem length_sha1Bytes (msg : List Nat) : (sha1Bytes msg).length = 20 := by
  rw [sha1Bytes, length_flatMap_be32, length_foldl_processBlock _ _ (by rfl)]

/-! ## Concrete fixtures used by the witnesses -/

/-- A small file system: `"bad"` cannot be opened, `"c"` holds byte `121`
(`"y"`), every other path holds byte `120` (`"x"`). -/
def fs0 : FS := fun p =>
  if p = "bad" then FileRes.openFail "permission denied"
  else if p = "c" then FileRes.content [121]
  else FileRes.content [120]

/-- Two same-sized descriptors with identical content. -/
def ds0 : List PathInfo := [PathInfo.mk "a" 1, PathInfo.mk "b" 1]

/-- A readable descriptor followed by an unopenable one. -/
def ds1 : List PathInfo := [PathInfo.mk "a" 1, PathInfo.mk "bad" 7]

/-- A walk: two regular files, one directory (type bit set), one error. -/
def evs0 : List WalkEvent :=
  [WalkEvent.entry "a" 0 1, WalkEvent.entry "sub" 2147483648 0,
   WalkEvent.verr "oops", WalkEvent.entry "b" 0 1]

/-- Every root walks to `evs0`. -/
def evsOf0 : String → List WalkEvent := fun _ => evs0

/-- Default flag settings. -/
def fl0 : Flags := { pairs := false, quiet := false }

/-- Both flags set. -/
def fl1 : Flags := { pairs := true, quiet := true }

/-! ## The claims -/

/-- C2: for every file that can be opened and fully read, the digest
function returns the 20-byte SHA-1 of the declared size encoded as an
8-byte big-endian integer followed by the full content byte stream. -/
theorem c2_digest (fs : FS) (path : String) (size : Nat) (bytes : List Nat)
    (h : fs path = FileRes.content bytes) :
    hashFile fs path size = (sha1Bytes (be64 size ++ bytes), none)
    ∧ (hashFile fs path size).1.length = 20 := by
  have h1 : hashFile fs path size = (sha1Bytes (be64 size ++ bytes), none) := by
    simp [hashFile, hashFileFull, h]
  exact ⟨h1, by rw [h1]; exact length_sha1Bytes _⟩

theorem c2_digest_witness :
    hashFile fs0 "a" 1 = (sha1Bytes (be64 1 ++ [120]), none)
    ∧ (hashFile fs0 "a" 1).1.length = 20 :=
  c2_digest fs0 "a" 1 [120] rfl

/-- C10: in `hashFile` the close of the file handle is deferred before the
open error is checked; when the open fails the deferred close runs on a nil
handle, returning `ErrInvalid` rather than panicking, and `hashFile`
returns the open error with the empty digest string. -/
theorem c10_nil_close (fs : FS) (path : String) (size : Nat) (m : String)
    (h : fs path = FileRes.openFail m) :
    hashFileFull fs path size =
      { digest := [], err := some (HashErr.openE path m),
        closeRes := CloseOutcome.retErrInvalid }
    ∧ (hashFileFull fs path size).closeRes ≠ CloseOutcome.panicNilDeref := by
  have h1 : hashFileFull fs path size =
      { digest := [], err := some (HashErr.openE path m),
        closeRes := CloseOutcome.retErrInvalid } := by
    simp [hashFileFull, h, fileClose]
  exact ⟨h1, by rw [h1]; simp⟩

theorem c10_nil_close_witness :
    hashFileFull fs0 "bad" 7 =
      { digest := [], err := some (HashErr.openE "bad" "permission denied"),
        closeRes := CloseOutcome.retErrInvalid }
    ∧ (hashFileFull fs0 "bad" 7).closeRes ≠ CloseOutcome.panicNilDeref :=
  c10_nil_close fs0 "bad" 7 "permission denied" rfl

/-- C3: in every reachable state of the concurrent system, the error
channel is closed only after the hasher signalled completion, the hasher
signalled completion only after the walker closed the descriptor channel,
and no producer ever sent on a closed error channel. -/
theorem c3_shutdown (fs : FS) (sink : Bool) (ws : List WAct) (s : Sys)
    (h : Reach fs sink ws s) :
    s.panicked = false
    ∧ (s.errClosed = true → s.doneSent = true ∧ s.pathsClosed = true)
    ∧ (s.doneSent = true → s.pathsClosed = true) := by
  obtain ⟨h1, h2, h3, h4, h5⟩ := sysInv_reach fs sink ws s h
  exact ⟨h1, fun hc => ⟨h3 (h2 hc), (h4 (h3 (h2 hc))).1⟩, fun hd => (h4 hd).1⟩

theorem c3_shutdown_witness :
    (Sys.init [WAct.werr "e"]).panicked = false
    ∧ ((Sys.init [WAct.werr "e"]).errClosed = true →
        (Sys.init [WAct.werr "e"]).doneSent = true
        ∧ (Sys.init [WAct.werr "e"]).pathsClosed = true)
    ∧ ((Sys.init [WAct.werr "e"]).doneSent = true →
        (Sys.init [WAct.werr "e"]).pathsClosed = true) :=
  c3_shutdown fs0 true [WAct.werr "e"] (Sys.init [WAct.werr "e"])
    Relation.ReflTransGen.refl

/-- C8: with the suppress-errors flag set no sink drains the error channel,
so when the error records to be sent — traversal errors from the Walker
plus per-file failures from the Hasher — number more than the channel's
capacity of 10, whichever producer still carries one blocks forever: in
every reachable state some error record is still undelivered (the walker
has pending actions, or a failing descriptor is still buffered, or the
hasher holds an unsent record), the hasher never signals completion, the
completion signal is never received, and the `Closed` state is never
reached. -/
theorem c8_quiet_deadlock (fs : FS) (ws : List WAct) (s : Sys)
    (hw : 11 ≤ werrCount ws + herrCount fs ws) (h : Reach fs false ws s) :
    (s.wacts ≠ [] ∨ s.pathsBuf ≠ [] ∨ s.hasherPend = true)
    ∧ s.doneSent = false ∧ s.doneRecvd = false ∧ s.errClosed = false := by
  obtain ⟨hbuf, hcnt⟩ := quietInv_reach fs ws s h
  obtain ⟨h1, h2, h3, h4, h5⟩ := sysInv_reach fs false ws s h
  have hrem : ¬(s.wacts = [] ∧ s.pathsBuf = [] ∧ s.hasherPend = false) := by
    rintro ⟨hw1, hw2, hw3⟩
    rw [hw1, hw2, hw3] at hcnt
    simp only [werrCount, herrCount, failCount, List.countP_nil,
      Bool.false_eq_true, if_false] at hcnt hw
    omega
  have hds : s.doneSent = false := by
    cases hds : s.doneSent
    · rfl
    · obtain ⟨hpc, -, hhp, hpb⟩ := h4 hds
      exact absurd ⟨h5 hpc, hpb, hhp⟩ hrem
  have hdr : s.doneRecvd = false := by
    cases hdr : s.doneRecvd
    · rfl
    · rw [h3 hdr] at hds; cases hds
  have hec : s.errClosed = false := by
    cases hec : s.errClosed
    · rfl
    · rw [h2 hec] at hdr; cases hdr
  refine ⟨?_, hds, hdr, hec⟩
  by_contra hcon
  push_neg at hcon
  obtain ⟨hc1, hc2, hc3⟩ := hcon
  exact hrem ⟨hc1, hc2, by simpa using hc3⟩

/-- A walker trace whose run must send 11 error records: 6 traversal errors
from the Walker and 5 unopenable files whose records come from the Hasher. -/
def ws8 : List WAct :=
  List.replicate 6 (WAct.werr "io error")
    ++ List.replicate 5 (WAct.wpath (PathInfo.mk "bad" 7))

theorem c8_quiet_deadlock_witness :
    ((Sys.init ws8).wacts ≠ [] ∨ (Sys.init ws8).pathsBuf ≠ []
        ∨ (Sys.init ws8).hasherPend = true)
    ∧ (Sys.init ws8).doneSent = false
    ∧ (Sys.init ws8).doneRecvd = false
    ∧ (Sys.init ws8).errClosed = false :=
  c8_quiet_deadlock fs0 ws8 (Sys.init ws8) (by decide)
    Relation.ReflTransGen.refl

/-- C4: the exit code is `3` exactly when more than one positional argument
is supplied (then nothing runs and nothing is reported); otherwise it is
`1` iff at least one traversal error occurred and `0` iff none did, and it
never depends on the file system (per-file open/read errors do not
escalate it). -/
theorem c4_exitcodes (fs fsB : FS) (evsOf : String → List WalkEvent)
    (fl flB : Flags) (args : List String) :
    (2 ≤ args.length → dupesRun fs evsOf fl args = MainResult.usage
        ∧ exitCodeOf (dupesRun fs evsOf fl args) = 3)
    ∧ (args.length ≤ 1 →
        ((exitCodeOf (dupesRun fs evsOf fl args) = 1 ↔
            walkErrors (evsOf (rootOf args)) ≠ [])
          ∧ (exitCodeOf (dupesRun fs evsOf fl args) = 0 ↔
            walkErrors (evsOf (rootOf args)) = [])))
    ∧ exitCodeOf (dupesRun fs evsOf fl args) = exitCodeOf (dupesRun fsB evsOf flB args) := by
  match args with
  | [] =>
      refine ⟨fun h => absurd h (by simp), fun _ => ?_, rfl⟩
      simp only [dupesRun, runWith, exitCodeOf, rootOf, walkExit_eq]
      by_cases he : walkErrors (evsOf ".") = [] <;> simp [he]
  | [r] =>
      refine ⟨fun h => absurd h (by simp), fun _ => ?_, rfl⟩
      simp only [dupesRun, runWith, exitCodeOf, rootOf, walkExit_eq]
      by_cases he : walkErrors (evsOf r) = [] <;> simp [he]
  | r1 :: r2 :: rest =>
      refine ⟨fun _ => ⟨rfl, rfl⟩, fun h => absurd h (by simp), rfl⟩

theorem c4_exitcodes_witness :
    (2 ≤ ([] : List String).length → dupesRun fs0 evsOf0 fl0 [] = MainResult.usage
        ∧ exitCodeOf (dupesRun fs0 evsOf0 fl0 []) = 3)
    ∧ (([] : List String).length ≤ 1 →
        ((exitCodeOf (dupesRun fs0 evsOf0 fl0 []) = 1 ↔
            walkErrors (evsOf0 (rootOf [])) ≠ [])
          ∧ (exitCodeOf (dupesRun fs0 evsOf0 fl0 []) = 0 ↔
            walkErrors (evsOf0 (rootOf [])) = [])))
    ∧ exitCodeOf (dupesRun fs0 evsOf0 fl0 []) = exitCodeOf (dupesRun fs0 evsOf0 fl1 []) :=
  c4_exitcodes fs0 fs0 evsOf0 fl0 fl1 []

/-- C1: two hashed files lie in one output group exactly when their digests
are equal — the grouping structure buckets paths by the digest value — and,
whenever digest collisions across the stream imply equal sizes (which the
prepended size encoding is designed to ensure), exactly when they have
identical size and identical digest. -/
theorem c1_grouping (fs : FS) (ds : List PathInfo) (d1 d2 : PathInfo)
    (k1 k2 : List Nat)
    (hnd : (ds.map PathInfo.path).Nodup)
    (h1 : d1 ∈ ds) (h2 : d2 ∈ ds)
    (hk1 : digestOf fs d1 = some k1) (hk2 : digestOf fs d2 = some k2)
    (hcoll : ∀ e1, e1 ∈ ds → ∀ e2, e2 ∈ ds → ∀ c : List Nat,
      digestOf fs e1 = some c → digestOf fs e2 = some c → e1.size = e2.size) :
    (sameGroup (runHash fs ds).1 d1.path d2.path ↔ k1 = k2)
    ∧ (sameGroup (runHash fs ds).1 d1.path d2.path ↔
        (d1.size = d2.size ∧ k1 = k2)) := by
  have hkeys : (keysOf (runHash fs ds).1).Nodup :=
    keysOf_hashLoop_nodup fs ds [] [] (by simp [keysOf])
  have hmem : ∀ k p, p ∈ getBucket (runHash fs ds).1 k ↔
      ∃ d ∈ ds, d.path = p ∧ digestOf fs d = some k := by
    intro k p
    have h := getBucket_hashLoop fs ds [] [] k p
    simpa [getBucket] using h
  have main_iff : sameGroup (runHash fs ds).1 d1.path d2.path ↔ k1 = k2 := by
    rw [sameGroup_iff_getBucket hkeys]
    constructor
    · rintro ⟨k, hp1, hp2⟩
      obtain ⟨e1, he1, hpe1, hde1⟩ := (hmem k d1.path).mp hp1
      obtain ⟨e2, he2, hpe2, hde2⟩ := (hmem k d2.path).mp hp2
      have he1d : e1 = d1 := List.inj_on_of_nodup_map hnd he1 h1 hpe1
      have he2d : e2 = d2 := List.inj_on_of_nodup_map hnd he2 h2 hpe2
      subst he1d; subst he2d
      rw [hk1] at hde1
      rw [hk2] at hde2
      simp only [Option.some.injEq] at hde1 hde2
      rw [hde1, hde2]
    · intro hkk
      refine ⟨k1, (hmem k1 d1.path).mpr ⟨d1, h1, rfl, hk1⟩,
        (hmem k1 d2.path).mpr ⟨d2, h2, rfl, ?_⟩⟩
      rw [hkk]; exact hk2
  refine ⟨main_iff, ?_⟩
  constructor
  · intro hsg
    have hkk := main_iff.mp hsg
    refine ⟨hcoll d1 h1 d2 h2 k1 hk1 ?_, hkk⟩
    rw [hkk]; exact hk2
  · rintro ⟨-, hkk⟩
    exact main_iff.mpr hkk

theorem c1_grouping_witness :
    (sameGroup (runHash fs0 ds0).1 (PathInfo.mk "a" 1).path (PathInfo.mk "b" 1).path ↔
        sha1Bytes (be64 1 ++ [120]) = sha1Bytes (be64 1 ++ [120]))
    ∧ (sameGroup (runHash fs0 ds0).1 (PathInfo.mk "a" 1).path (PathInfo.mk "b" 1).path ↔
        ((PathInfo.mk "a" 1).size = (PathInfo.mk "b" 1).size ∧
          sha1Bytes (be64 1 ++ [120]) = sha1Bytes (be64 1 ++ [120]))) :=
  c1_grouping fs0 ds0 (PathInfo.mk "a" 1) (PathInfo.mk "b" 1)
    (sha1Bytes (be64 1 ++ [120])) (sha1Bytes (be64 1 ++ [120]))
    (by decide) (by decide) (by decide) rfl rfl
    (by
      intro e1 he1 e2 he2 c hc1 hc2
      have hs1 : e1.size = 1 := by
        rcases List.mem_cons.mp he1 with rfl | he1'
        · rfl
        · rcases List.mem_cons.mp he1' with rfl | he1''
          · rfl
          · cases he1''
      have hs2 : e2.size = 1 := by
        rcases List.mem_cons.mp he2 with rfl | he2'
        · rfl
        · rcases List.mem_cons.mp he2' with rfl | he2''
          · rfl
          · cases he2''
      rw [hs1, hs2])

/-- C5: a descriptor whose file cannot be opened or read produces exactly
one error record (carrying its path), yields the empty digest, and its path
appears neither in the grouping structure nor in any reported line. -/
theorem c5_failed_file (fs : FS) (ds : List PathInfo) (d : PathInfo) (e : HashErr)
    (hd : d ∈ ds) (hnd : (ds.map PathInfo.path).Nodup)
    (hfail : (hashFile fs d.path d.size).2 = some e) :
    (hashFile fs d.path d.size).1 = []
    ∧ (∀ k, ¬ inBucket (runHash fs ds).1 k d.path)
    ∧ ((runHash fs ds).2.countP (fun er => er.epath == d.path) = 1)
    ∧ (∀ b : Bool, ∀ l ∈ report b (runHash fs ds).1, d.path ∉ l.mentions) := by
  have hkeys : (keysOf (runHash fs ds).1).Nodup :=
    keysOf_hashLoop_nodup fs ds [] [] (by simp [keysOf])
  have hnb : ∀ k, ¬ inBucket (runHash fs ds).1 k d.path := by
    intro k hib
    rw [inBucket_iff_getBucket hkeys] at hib
    have hg := (getBucket_hashLoop fs ds [] [] k d.path).mp hib
    rcases hg with h0 | ⟨d', hd', hp', hdg⟩
    · simp [getBucket] at h0
    · have : d' = d := List.inj_on_of_nodup_map hnd hd' hd hp'
      subst this
      rw [digestOf_none hfail] at hdg
      cases hdg
  refine ⟨hashFile_digest_of_err hfail, hnb, ?_, ?_⟩
  · rw [runHash, hashLoop_snd]
    simpa using errs_countP_one fs d e hfail ds hd hnd
  · intro b l hl hmem
    obtain ⟨kv, hkv, hlb⟩ := report_mem hl
    obtain ⟨k0, ps0⟩ := kv
    exact hnb k0 ⟨ps0, hkv, mentions_reportBucket hlb _ hmem⟩

theorem c5_failed_file_witness :
    (hashFile fs0 (PathInfo.mk "bad" 7).path (PathInfo.mk "bad" 7).size).1 = []
    ∧ (∀ k, ¬ inBucket (runHash fs0 ds1).1 k (PathInfo.mk "bad" 7).path)
    ∧ ((runHash fs0 ds1).2.countP
        (fun er => er.epath == (PathInfo.mk "bad" 7).path) = 1)
    ∧ (∀ b : Bool, ∀ l ∈ report b (runHash fs0 ds1).1,
        (PathInfo.mk "bad" 7).path ∉ l.mentions) :=
  c5_failed_file fs0 ds1 (PathInfo.mk "bad" 7)
    (HashErr.openE "bad" "permission denied") (by decide) (by decide) rfl

/-- C6: the reporter prints nothing for buckets of fewer than two paths; a
bucket of two or more paths yields one joined line in default mode, and in
pairwise mode exactly n·(n−1)/2 lines, each an unordered pair of two
distinct bucket paths, with no repeated pair and no self-pair. -/
theorem c6_reporter (ps : List String) (hnd : ps.Nodup) :
    (∀ b, ps.length ≤ 1 → reportBucket b ps = [])
    ∧ (2 ≤ ps.length → reportBucket false ps = [Line.joined ps])
    ∧ (2 ≤ ps.length → reportBucket true ps = printpairs ps)
    ∧ (printpairs ps).length = ps.length * (ps.length - 1) / 2
    ∧ (printpairs ps).Nodup
    ∧ (∀ p q, Line.pair p q ∈ printpairs ps →
        p ∈ ps ∧ q ∈ ps ∧ p ≠ q ∧ Line.pair q p ∉ printpairs ps) := by
  refine ⟨?_, ?_, ?_, ?_, printpairs_nodup hnd, ?_⟩
  · intro b hlen
    rw [reportBucket, if_neg (by omega)]
  · intro hlen
    rw [reportBucket, if_pos (by omega)]
    simp
  · intro hlen
    rw [reportBucket, if_pos (by omega)]
    simp
  · rw [printpairs_length, Nat.choose_two_right]
  · intro p q hm
    obtain ⟨hp, hq⟩ := printpairs_mem hm
    obtain ⟨hne, hnc⟩ := printpairs_irrefl hnd hm
    exact ⟨hp, hq, hne, hnc⟩

theorem c6_reporter_witness :
    (∀ b, (["a", "b", "c"] : List String).length ≤ 1 →
        reportBucket b ["a", "b", "c"] = [])
    ∧ (2 ≤ (["a", "b", "c"] : List String).length →
        reportBucket false ["a", "b", "c"] = [Line.joined ["a", "b", "c"]])
    ∧ (2 ≤ (["a", "b", "c"] : List String).length →
        reportBucket true ["a", "b", "c"] = printpairs ["a", "b", "c"])
    ∧ (printpairs ["a", "b", "c"]).length
        = (["a", "b", "c"] : List String).length
          * ((["a", "b", "c"] : List String).length - 1) / 2
    ∧ (printpairs ["a", "b", "c"]).Nodup
    ∧ (∀ p q, Line.pair p q ∈ printpairs ["a", "b", "c"] →
        p ∈ (["a", "b", "c"] : List String) ∧ q ∈ (["a", "b", "c"] : List String)
          ∧ p ≠ q ∧ Line.pair q p ∉ printpairs ["a", "b", "c"]) :=
  c6_reporter ["a", "b", "c"] (by decide)

/-- C7: every path in the grouping structure was emitted by the walker for
an entry whose mode had no file-type bits set (a regular file at
observation time), and when the walker emits pairwise distinct paths each
path occurs in the grouping structure at most once. -/
theorem c7_regular_once (fs : FS) (evs : List WalkEvent)
    (hnd : ((walkPaths evs).map PathInfo.path).Nodup) :
    (∀ p, (∃ k, inBucket (runHash fs (walkPaths evs)).1 k p) →
        ∃ s, WalkEvent.entry p 0 s ∈ evs)
    ∧ (∀ p, ((runHash fs (walkPaths evs)).1.flatMap Prod.snd).count p ≤ 1) := by
  have hkeys : (keysOf (runHash fs (walkPaths evs)).1).Nodup :=
    keysOf_hashLoop_nodup fs (walkPaths evs) [] [] (by simp [keysOf])
  constructor
  · rintro p ⟨k, hib⟩
    rw [inBucket_iff_getBucket hkeys] at hib
    have hg := (getBucket_hashLoop fs (walkPaths evs) [] [] k p).mp hib
    rcases hg with h0 | ⟨d, hd, hp, -⟩
    · simp [getBucket] at h0
    · exact ⟨d.size, hp ▸ walkPaths_mem hd⟩
  · intro p
    have hperm := hashLoop_flatMap_perm fs (walkPaths evs) [] []
    rw [runHash, hperm.count_eq p]
    simp only [List.flatMap_nil, List.nil_append]
    exact le_trans ((okPaths_sublist fs _).count_le p)
      (List.nodup_iff_count_le_one.mp hnd p)

theorem c7_regular_once_witness :
    (∀ p, (∃ k, inBucket (runHash fs0 (walkPaths evs0)).1 k p) →
        ∃ s, WalkEvent.entry p 0 s ∈ evs0)
    ∧ (∀ p, ((runHash fs0 (walkPaths evs0)).1.flatMap Prod.snd).count p ≤ 1) :=
  c7_regular_once fs0 evs0 (by decide)

/-- The reported groups of a run: the buckets of two or more paths, in the
iteration order of the grouping structure. -/
def groupsOf (m : ByHash) : List (List String) :=
  (m.filter fun kv => kv.2.length > 1).map Prod.snd

/-- C9: two runs over the same unmodified tree produce the same grouping
structure up to bucket iteration order, hence the same multiset of report
lines and the same multiset of reported groups. -/
theorem c9_idempotent (fs : FS) (evs : List WalkEvent) (m1 m2 : ByHash)
    (h1 : m1.Perm (runHash fs (walkPaths evs)).1)
    (h2 : m2.Perm (runHash fs (walkPaths evs)).1) :
    (∀ b, (report b m1).Perm (report b m2))
    ∧ (groupsOf m1).Perm (groupsOf m2) := by
  have h12 : m1.Perm m2 := h1.trans h2.symm
  exact ⟨fun b => h12.flatMap_right _, (h12.filter _).map _⟩

theorem c9_idempotent_witness :
    (∀ b, (report b (runHash fs0 (walkPaths evs0)).1).Perm
        (report b (runHash fs0 (walkPaths evs0)).1))
    ∧ (groupsOf (runHash fs0 (walkPaths evs0)).1).Perm
        (groupsOf (runHash fs0 (walkPaths evs0)).1) :=
  c9_idempotent fs0 evs0 _ _ (List.Perm.refl _) (List.Perm.refl _)

end Dupes
